import Mathlib

/-!
Verification of the Tyger Python runtime (`tyger.py`), a binary
serialization library of "packers" with a big-endian wire format.

Modelling conventions (shallow embedding of the Python source):

* Byte strings are `List Nat` whose entries are byte values; character
  strings are `List Nat` of Unicode code points.  The module predates the
  Python 2/3 bytes/str split (it concatenates `str` with socket data and
  calls `str(data)` on received bytes), so both are byte/number sequences
  and `str(data)` on a byte string is the identity.
* `struct.pack`/`struct.unpack` for the fixed big-endian formats are
  modelled by explicit big-endian byte serialization with the range checks
  `struct` performs; a raised exception is `none` (for `Option`-valued
  operations) or `.error` (for `Except`-valued ones).
* Python slicing `buf[o : o + n]` is `(buf.drop o).take n`: it silently
  truncates at the end of the buffer and never fails.
* IEEE-754 float values are modelled by their bit patterns: `struct`'s
  `>f` / `>d` formats write exactly the 4 or 8 bytes of the pattern,
  big-endian, so the byte-level codec is bit-pattern serialization.
* Sockets are modelled by explicit state passing: a connection is a
  function `recvFn : σ → Nat → List Nat × σ` taking the current state and
  the requested byte count and returning the bytes actually delivered
  (possibly fewer; `[]` means the peer closed the connection) together
  with the successor state.
-/

/-- Big-endian serialization of `v` into `w` bytes, most significant byte
first: byte `i` (counting from the least significant, `i = w-1` emitted
first) is `(v >>> (8*i)) &&& 0xFF`.  This is both the body of the loop in
`uintPacker.pack` (`tyger.py` lines 53-60) and the byte layout produced by
`struct.pack` for the fixed-width big-endian unsigned formats. -/
def toBytesBE : Nat → Nat → List Nat
  | 0, _ => []
  | w + 1, v => ((v >>> (8 * w)) &&& 0xFF) :: toBytesBE w v

/-- Big-endian deserialization: the integer denoted by a byte string,
most significant byte first, as decoded by `struct.unpack` for the
big-endian unsigned formats. -/
def fromBytesBE (bs : List Nat) : Nat :=
  bs.foldl (fun acc b => acc * 256 + b) 0

/-- Embedding of `basePacker.unpack` (`tyger.py` lines 34-40) specialized
by a format of byte size `size` with total byte decoder `decodeFn`:
`struct.calcsize` gives `size`, the slice `buf[offset : offset + size]`
is taken, and `struct.unpack` on it succeeds exactly when the slice holds
the full `size` bytes (a short slice raises `struct.error`, modelled as
`none`). -/
def fixedUnpack {α : Type} (size : Nat) (decodeFn : List Nat → α)
    (buf : List Nat) (offset : Nat) : Option (α × Nat) :=
  if offset + size ≤ buf.length then
    some (decodeFn ((buf.drop offset).take size), offset + size)
  else
    none

/-- `boolPacker.pack`: `struct.pack` with format `>?` emits the single
byte `0x01` for true and `0x00` for false. -/
def boolPacker.pack (b : Bool) : List Nat :=
  [if b then 1 else 0]

/-- `boolPacker.unpack`: format `>?` decodes a single byte, any nonzero
byte giving true. -/
def boolPacker.unpack (buf : List Nat) (offset : Nat) : Option (Bool × Nat) :=
  fixedUnpack 1 (fun bs => bs.getD 0 0 != 0) buf offset

/-- Embedding of `basePacker.pack` for the signed big-endian formats
(`>b`, `>h`, `>i`, `>q`) of byte size `w`: `struct.pack` checks the
two's-complement range and emits the value reduced modulo `2^(8*w)`,
big-endian.  (`2^(8*w)/2` is `2^(8*w-1)`; the division form avoids
natural subtraction in the exponent.) -/
def intPacker.pack (w : Nat) (v : Int) : Option (List Nat) :=
  if -((2 : Int) ^ (8 * w) / 2) ≤ v ∧ v < (2 : Int) ^ (8 * w) / 2 then
    some (toBytesBE w (v % (2 : Int) ^ (8 * w)).toNat)
  else
    none

/-- Embedding of `basePacker.unpack` for the signed big-endian formats:
decode the unsigned big-endian value and reinterpret in two's complement
(`2 * u < 2^(8*w)` says the sign bit is clear). -/
def intPacker.unpack (w : Nat) (buf : List Nat) (offset : Nat) :
    Option (Int × Nat) :=
  fixedUnpack w
    (fun bs =>
      let u := fromBytesBE bs
      if 2 * u < 2 ^ (8 * w) then (u : Int) else (u : Int) - 2 ^ (8 * w))
    buf offset

/-- Embedding of `basePacker.pack` for the unsigned big-endian formats
(`>B`, `>H`, `>I`, `>Q`) of byte size `w`: `struct.pack` checks the range
and emits the big-endian bytes. -/
def fixedUintPack (w : Nat) (v : Nat) : Option (List Nat) :=
  if v < 2 ^ (8 * w) then some (toBytesBE w v) else none

/-- Embedding of `basePacker.unpack` for the unsigned big-endian
formats. -/
def fixedUintUnpack (w : Nat) (buf : List Nat) (offset : Nat) :
    Option (Nat × Nat) :=
  fixedUnpack w fromBytesBE buf offset

def int8Packer.pack : Int → Option (List Nat) := intPacker.pack 1

def int8Packer.unpack : List Nat → Nat → Option (Int × Nat) := intPacker.unpack 1

def int16Packer.pack : Int → Option (List Nat) := intPacker.pack 2

def int16Packer.unpack : List Nat → Nat → Option (Int × Nat) := intPacker.unpack 2

def int32Packer.pack : Int → Option (List Nat) := intPacker.pack 4

def int32Packer.unpack : List Nat → Nat → Option (Int × Nat) := intPacker.unpack 4

def int64Packer.pack : Int → Option (List Nat) := intPacker.pack 8

def int64Packer.unpack : List Nat → Nat → Option (Int × Nat) := intPacker.unpack 8

def uint8Packer.pack : Nat → Option (List Nat) := fixedUintPack 1

def uint8Packer.unpack : List Nat → Nat → Option (Nat × Nat) := fixedUintUnpack 1

def uint16Packer.pack : Nat → Option (List Nat) := fixedUintPack 2

def uint16Packer.unpack : List Nat → Nat → Option (Nat × Nat) := fixedUintUnpack 2

def uint32Packer.pack : Nat → Option (List Nat) := fixedUintPack 4

def uint32Packer.unpack : List Nat → Nat → Option (Nat × Nat) := fixedUintUnpack 4

def uint64Packer.pack : Nat → Option (List Nat) := fixedUintPack 8

def uint64Packer.unpack : List Nat → Nat → Option (Nat × Nat) := fixedUintUnpack 8

/-- `float32Packer.pack` (format `>f`): floats are modelled by their
IEEE-754 binary32 bit patterns, and the format writes exactly the 4 bytes
of the pattern, big-endian. -/
def float32Packer.pack : Nat → Option (List Nat) := fixedUintPack 4

def float32Packer.unpack : List Nat → Nat → Option (Nat × Nat) := fixedUintUnpack 4

/-- `float64Packer.pack` (format `>d`): IEEE-754 binary64 bit patterns,
8 bytes big-endian. -/
def float64Packer.pack : Nat → Option (List Nat) := fixedUintPack 8

def float64Packer.unpack : List Nat → Nat → Option (Nat × Nat) := fixedUintUnpack 8

/-- `uintPacker.pack` (`tyger.py` lines 53-60): the loop
`for i in range(num_bytes - 1, -1, -1): data += uint8Packer.pack((value >> (8*i)) & 0xFF)`
appends, most significant first, exactly the bytes of `toBytesBE`
(`uint8Packer.pack` on the masked byte always succeeds and yields that
single byte). -/
def uintPacker.pack (num_bytes value : Nat) : List Nat :=
  toBytesBE num_bytes value

/-- `uintPacker.unpack` (`tyger.py` lines 62-70): reads `num_bytes` bytes
through `uint8Packer.unpack`, threading the offset, and ORs each byte
shifted into position (`value |= b << (8*i)`, `i` from `num_bytes - 1`
down to `0`); the running `|=` accumulation is expressed by right-nested
ORs, which denote the same number since `Nat` OR is associative and
commutative. -/
def uintPacker.unpack : Nat → List Nat → Nat → Option (Nat × Nat)
  | 0, _, offset => some (0, offset)
  | n + 1, buf, offset =>
    match uint8Packer.unpack buf offset with
    | none => none
    | some (b, o1) =>
      match uintPacker.unpack n buf o1 with
      | none => none
      | some (v, o2) => some ((b <<< (8 * n)) ||| v, o2)

/-- Models `value.encode('ascii')`: succeeds exactly when every code
point is in the 7-bit range, mapping each code point to the identical
byte value; a failure is the `UnicodeEncodeError` the claim calls an
`EncodingError`. -/
def encodeASCII (s : List Nat) : Option (List Nat) :=
  if ∀ c ∈ s, c < 128 then some s else none

/-- Models `buf.decode('ascii')`: succeeds exactly when every byte is
below `0x80`, mapping each byte to the identical code point. -/
def decodeASCII (bs : List Nat) : Option (List Nat) :=
  if ∀ b ∈ bs, b < 128 then some bs else none

/-- Standard UTF-8 serialization of one Unicode scalar value (1 to 4
bytes depending on the range), as produced by `value.encode('utf-8')`. -/
def encodeUTF8Char (c : Nat) : List Nat :=
  if c < 0x80 then [c]
  else if c < 0x800 then [0xC0 + c / 64, 0x80 + c % 64]
  else if c < 0x10000 then
    [0xE0 + c / 4096, 0x80 + c / 64 % 64, 0x80 + c % 64]
  else
    [0xF0 + c / 262144, 0x80 + c / 4096 % 64, 0x80 + c / 64 % 64, 0x80 + c % 64]

/-- Models `value.encode('utf-8')`: every code point must be a Unicode
scalar value (below `0x110000` and not a surrogate); each is serialized
by `encodeUTF8Char` and the results are concatenated. -/
def encodeUTF8 (s : List Nat) : Option (List Nat) :=
  if ∀ c ∈ s, c < 0x110000 ∧ ¬(0xD800 ≤ c ∧ c < 0xE000) then
    some (s.map encodeUTF8Char).flatten
  else
    none

/-- One step of a strict UTF-8 decoder: from the head of the byte string
read one scalar value, returning it together with the number of bytes it
occupied; rejects stray continuation bytes, overlong forms, surrogates
and out-of-range code points. -/
def decodeUTF8Step : List Nat → Option (Nat × Nat)
  | [] => none
  | b0 :: rest =>
    if b0 < 0x80 then some (b0, 1)
    else if b0 < 0xC2 then none
    else if b0 < 0xE0 then
      match rest with
      | b1 :: _ =>
        if 0x80 ≤ b1 ∧ b1 < 0xC0 then
          some ((b0 - 0xC0) * 64 + (b1 - 0x80), 2)
        else none
      | [] => none
    else if b0 < 0xF0 then
      match rest with
      | b1 :: b2 :: _ =>
        if (0x80 ≤ b1 ∧ b1 < 0xC0) ∧ (0x80 ≤ b2 ∧ b2 < 0xC0) then
          if (b0 - 0xE0) * 4096 + (b1 - 0x80) * 64 + (b2 - 0x80) < 0x800 ∨
              (0xD800 ≤ (b0 - 0xE0) * 4096 + (b1 - 0x80) * 64 + (b2 - 0x80) ∧
                (b0 - 0xE0) * 4096 + (b1 - 0x80) * 64 + (b2 - 0x80) < 0xE000) then
            none
          else
            some ((b0 - 0xE0) * 4096 + (b1 - 0x80) * 64 + (b2 - 0x80), 3)
        else none
      | _ => none
    else if b0 < 0xF5 then
      match rest with
      | b1 :: b2 :: b3 :: _ =>
        if (0x80 ≤ b1 ∧ b1 < 0xC0) ∧ ((0x80 ≤ b2 ∧ b2 < 0xC0) ∧
            (0x80 ≤ b3 ∧ b3 < 0xC0)) then
          if (b0 - 0xF0) * 262144 + (b1 - 0x80) * 4096 + (b2 - 0x80) * 64 +
                (b3 - 0x80) < 0x10000 ∨
              0x110000 ≤ (b0 - 0xF0) * 262144 + (b1 - 0x80) * 4096 +
                (b2 - 0x80) * 64 + (b3 - 0x80) then
            none
          else
            some ((b0 - 0xF0) * 262144 + (b1 - 0x80) * 4096 +
              (b2 - 0x80) * 64 + (b3 - 0x80), 4)
        else none
      | _ => none
    else none

/-- Models `bytes.decode('utf-8')`: decode scalar values off the head of
the byte string until it is exhausted; any malformed head fails the whole
decode.  (Each step consumes at least one byte, so the decode
terminates.) -/
def decodeUTF8 (bs : List Nat) : Option (List Nat) :=
  if bs.isEmpty then some []
  else
    match h : decodeUTF8Step bs with
    | none => none
    | some (c, k) =>
      (decodeUTF8 (bs.drop k)).map (fun s => c :: s)
termination_by bs.length
decreasing_by
  have hk : 1 ≤ k := by
    cases bs with
    | nil => simp [decodeUTF8Step] at h
    | cons b0 rest =>
      simp only [decodeUTF8Step] at h
      iterate 12 all_goals try split at h
      all_goals try simp at h
      all_goals omega
  simp only [List.length_drop]
  cases bs with
  | nil => simp [List.isEmpty] at *
  | cons x xs => simp; omega

/-- `astringPacker.pack` (`tyger.py` lines 112-116): ASCII-encode the
value, then emit `struct.pack(">I", len(asc)) + asc`. -/
def astringPacker.pack (value : List Nat) : Option (List Nat) :=
  match encodeASCII value with
  | none => none
  | some asc =>
    match fixedUintPack 4 asc.length with
    | none => none
    | some pre => some (pre ++ asc)

/-- `astringPacker.unpack` (`tyger.py` lines 118-124): read the 4-byte
length via `uint32Packer.unpack`, slice `length` bytes (Python slicing —
a short buffer silently yields a short slice), ASCII-decode the slice and
return it with offset `offset + length`. -/
def astringPacker.unpack (buf : List Nat) (offset : Nat) :
    Option (List Nat × Nat) :=
  match uint32Packer.unpack buf offset with
  | none => none
  | some (length, o) =>
    match decodeASCII ((buf.drop o).take length) with
    | none => none
    | some s => some (s, o + length)

/-- `wstringPacker.pack` (`tyger.py` lines 136-139): UTF-8-encode the
value, then emit `struct.pack(">I", len(utf8)) + utf8`. -/
def wstringPacker.pack (value : List Nat) : Option (List Nat) :=
  match encodeUTF8 value with
  | none => none
  | some utf8 =>
    match fixedUintPack 4 utf8.length with
    | none => none
    | some pre => some (pre ++ utf8)

/-- `wstringPacker.unpack` (`tyger.py` lines 141-147): read the 4-byte
length, slice `length` bytes (silently short when the buffer is),
UTF-8-decode the slice and return it with offset `offset + length`. -/
def wstringPacker.unpack (buf : List Nat) (offset : Nat) :
    Option (List Nat × Nat) :=
  match uint32Packer.unpack buf offset with
  | none => none
  | some (length, o) =>
    match decodeUTF8 ((buf.drop o).take length) with
    | none => none
    | some s => some (s, o + length)

/-- The `while` loop of `recv_all` (`tyger.py` lines 16-27) with the
accumulator `received` explicit: while fewer than `size` bytes have been
received, ask the connection for the remaining count; a `[]` reply (the
peer closed the connection) raises `Exception("Lost connection")`,
otherwise the reply is appended and the loop continues. -/
def recv_all_loop {σ : Type} (recvFn : σ → Nat → List Nat × σ) (st : σ)
    (size : Nat) (received : List Nat) : Except String (List Nat × σ) :=
  if h : received.length < size then
    if hnil : (recvFn st (size - received.length)).1 = [] then
      Except.error "Lost connection"
    else
      recv_all_loop recvFn (recvFn st (size - received.length)).2 size
        (received ++ (recvFn st (size - received.length)).1)
  else
    Except.ok (received, st)
termination_by size - received.length
decreasing_by
  have : 0 < (recvFn st (size - received.length)).1.length :=
    List.length_pos.mpr hnil
  simp only [List.length_append]
  omega

/-- `recv_all(sock, size)`: run the loop starting from the empty
accumulator (`received = ""`). -/
def recv_all {σ : Type} (recvFn : σ → Nat → List Nat × σ) (st : σ)
    (size : Nat) : Except String (List Nat × σ) :=
  recv_all_loop recvFn st size []

/-- `basePacker.recv` (`tyger.py` lines 42-50) for the `>I` format
(`uint32Packer`): read exactly 4 bytes with `recv_all`, then
`struct.unpack` the received byte string itself (which must be exactly 4
bytes long), returning the bare value. -/
def uint32Packer.recv {σ : Type} (recvFn : σ → Nat → List Nat × σ)
    (st : σ) : Except String (Nat × σ) :=
  match recv_all recvFn st 4 with
  | Except.error e => Except.error e
  | Except.ok (data, st1) =>
    if data.length = 4 then
      Except.ok (fromBytesBE data, st1)
    else
      Except.error "struct.error"

/-- `uintPacker.recv` (`tyger.py` lines 72-76): read exactly `num_bytes`
bytes with `recv_all`, then return `uintPacker.unpack(num_bytes, data, 0)`
itself — the `(value, offset)` PAIR, not the bare value. -/
def uintPacker.recv {σ : Type} (recvFn : σ → Nat → List Nat × σ)
    (num_bytes : Nat) (st : σ) : Except String ((Nat × Nat) × σ) :=
  match recv_all recvFn st num_bytes with
  | Except.error e => Except.error e
  | Except.ok (data, st1) =>
    match uintPacker.unpack num_bytes data 0 with
    | none => Except.error "struct.error"
    | some p => Except.ok (p, st1)

/-- `astringPacker.recv` (`tyger.py` lines 126-132): read the 4-byte
length via `uint32Packer.recv`, read exactly that many further bytes with
`recv_all`, and return `str(data)` — the raw received byte string. -/
def astringPacker.recv {σ : Type} (recvFn : σ → Nat → List Nat × σ)
    (st : σ) : Except String (List Nat × σ) :=
  match uint32Packer.recv recvFn st with
  | Except.error e => Except.error e
  | Except.ok (length, st1) =>
    match recv_all recvFn st1 length with
    | Except.error e => Except.error e
    | Except.ok (data, st2) => Except.ok (data, st2)

/-- A connection that serves reads out of the byte buffer `buf`: the
state is the read position, and each read delivers as many of the
requested bytes as remain (an exhausted buffer delivers `[]`, i.e. the
peer has closed the connection). -/
def bufRecv (buf : List Nat) : Nat → Nat → List Nat × Nat :=
  fun pos k => ((buf.drop pos).take k, pos + ((buf.drop pos).take k).length)

theorem toBytesBE_length (w v : Nat) : (toBytesBE w v).length = w := by
  induction w generalizing v with
  | zero => rfl
  | succ w ih => simp [toBytesBE, ih]

theorem toBytesBE_lt (w v : Nat) : ∀ b ∈ toBytesBE w v, b < 256 := by
  induction w generalizing v with
  | zero => intro b hb; simp [toBytesBE] at hb
  | succ w ih =>
    intro b hb
    simp only [toBytesBE, List.mem_cons] at hb
    rcases hb with h | h
    · subst h
      have : (v >>> (8 * w)) &&& 0xFF = (v >>> (8 * w)) % 256 := by
        have h255 : (0xFF : Nat) = 2 ^ 8 - 1 := by norm_num
        rw [h255, Nat.and_pow_two_sub_one_eq_mod]
      rw [this]
      exact Nat.mod_lt _ (by norm_num)
    · exact ih v b h

theorem fromBytesBE_cons (b : Nat) (bs : List Nat) :
    fromBytesBE (b :: bs) = b * 256 ^ bs.length + fromBytesBE bs := by
  have key : ∀ (l : List Nat) (a : Nat),
      l.foldl (fun acc b => acc * 256 + b) a =
        a * 256 ^ l.length + l.foldl (fun acc b => acc * 256 + b) 0 := by
    intro l
    induction l with
    | nil => intro a; simp
    | cons x xs ih =>
      intro a
      simp only [List.foldl_cons, List.length_cons]
      rw [ih (a * 256 + x), ih (0 * 256 + x)]
      ring
  simp only [fromBytesBE, List.foldl_cons]
  rw [key bs (0 * 256 + b)]
  ring_nf

theorem fromBytesBE_lt (bs : List Nat) (h : ∀ b ∈ bs, b < 256) :
    fromBytesBE bs < 2 ^ (8 * bs.length) := by
  induction bs with
  | nil => simp [fromBytesBE]
  | cons b t ih =>
    rw [fromBytesBE_cons]
    have hb : b < 256 := h b (List.mem_cons_self _ _)
    have ht : fromBytesBE t < 2 ^ (8 * t.length) :=
      ih (fun x hx => h x (List.mem_cons_of_mem _ hx))
    have hpow : (256 : Nat) ^ t.length = 2 ^ (8 * t.length) := by
      rw [show (256 : Nat) = 2 ^ 8 by norm_num, ← pow_mul]
    have hlen : 2 ^ (8 * (b :: t).length) = 2 ^ 8 * 2 ^ (8 * t.length) := by
      rw [List.length_cons, ← pow_add]
      ring_nf
    rw [hlen, hpow]
    calc b * 2 ^ (8 * t.length) + fromBytesBE t
        < b * 2 ^ (8 * t.length) + 2 ^ (8 * t.length) := by omega
      _ = (b + 1) * 2 ^ (8 * t.length) := by ring
      _ ≤ 2 ^ 8 * 2 ^ (8 * t.length) := by
          have : b + 1 ≤ 2 ^ 8 := by omega
          exact Nat.mul_le_mul_right _ this

theorem mod_mul_decomp (v A k : Nat) :
    v % (A * k) = A * (v / A % k) + v % A := by
  have h1 : v % (A * k) / A = v / A % k := Nat.mod_mul_right_div_self v A k
  have h2 : v % (A * k) % A = v % A := Nat.mod_mod_of_dvd v ⟨k, rfl⟩
  have h3 := Nat.div_add_mod (v % (A * k)) A
  rw [h1, h2] at h3
  exact h3.symm

/-- Big-endian round trip: deserializing the `w`-byte serialization of `v`
recovers `v` reduced to its low `8*w` bits. -/
theorem fromBytesBE_toBytesBE (w v : Nat) :
    fromBytesBE (toBytesBE w v) = v % 2 ^ (8 * w) := by
  induction w generalizing v with
  | zero => simp [toBytesBE, fromBytesBE, Nat.mod_one]
  | succ w ih =>
    rw [toBytesBE, fromBytesBE_cons, toBytesBE_length, ih]
    have hmask : (v >>> (8 * w)) &&& 0xFF = v / 2 ^ (8 * w) % 2 ^ 8 := by
      have h255 : (0xFF : Nat) = 2 ^ 8 - 1 := by norm_num
      rw [h255, Nat.and_pow_two_sub_one_eq_mod, Nat.shiftRight_eq_div_pow]
    have hpow : (256 : Nat) ^ w = 2 ^ (8 * w) := by
      rw [show (256 : Nat) = 2 ^ 8 by norm_num, ← pow_mul]
    have hsucc : 2 ^ (8 * (w + 1)) = 2 ^ (8 * w) * 2 ^ 8 := by
      rw [← pow_add]; ring_nf
    rw [hmask, hpow, hsucc, mod_mul_decomp v (2 ^ (8 * w)) (2 ^ 8)]
    ring

theorem pow256_eq (n : Nat) : (256 : Nat) ^ n = 2 ^ (8 * n) := by
  rw [show (256 : Nat) = 2 ^ 8 by norm_num, ← pow_mul]

theorem shiftLeft_or_eq_add {b v k : Nat} (h : v < 2 ^ k) :
    (b <<< k) ||| v = b * 2 ^ k + v := by
  rw [Nat.shiftLeft_eq]
  have := Nat.mul_add_lt_is_or h b
  rw [Nat.mul_comm (2 ^ k) b] at this
  exact this.symm

/-- A successful `uintPacker.unpack` always advances the offset by exactly
`num_bytes`, whatever the buffer contents. -/
theorem uintPacker_unpack_offset (n : Nat) (buf : List Nat) (o : Nat)
    (v o2 : Nat) (h : uintPacker.unpack n buf o = some (v, o2)) :
    o2 = o + n := by
  induction n generalizing o v with
  | zero =>
    simp only [uintPacker.unpack, Option.some.injEq, Prod.mk.injEq] at h
    omega
  | succ n ih =>
    cases h8 : uint8Packer.unpack buf o with
    | none => simp [uintPacker.unpack, h8] at h
    | some p =>
      obtain ⟨b, o1⟩ := p
      cases hr : uintPacker.unpack n buf o1 with
      | none => simp [uintPacker.unpack, h8, hr] at h
      | some q =>
        obtain ⟨v', o2'⟩ := q
        simp only [uintPacker.unpack, h8, hr, Option.some.injEq,
          Prod.mk.injEq] at h
        have ho1 : o1 = o + 1 := by
          simp only [uint8Packer.unpack, fixedUintUnpack, fixedUnpack] at h8
          by_cases hc : o + 1 ≤ buf.length
          · rw [if_pos hc] at h8
            simp only [Option.some.injEq, Prod.mk.injEq] at h8
            omega
          · rw [if_neg hc] at h8; exact absurd h8 (by simp)
        have hrec : uintPacker.unpack n buf o1 = some (v', o2) := by
          rw [hr, h.2]
        have := ih o1 v' hrec
        omega

/-- `uintPacker.unpack` fails (some byte read runs past the end of the
buffer) when fewer than `num_bytes` bytes remain at the offset. -/
theorem uintPacker_unpack_none (n : Nat) (buf : List Nat) (o : Nat)
    (h : buf.length - o < n) : uintPacker.unpack n buf o = none := by
  induction n generalizing o with
  | zero => omega
  | succ n ih =>
    by_cases hc : o + 1 ≤ buf.length
    · have h8 : uint8Packer.unpack buf o =
          some (fromBytesBE ((buf.drop o).take 1), o + 1) := by
        simp only [uint8Packer.unpack, fixedUintUnpack, fixedUnpack, if_pos hc]
      simp only [uintPacker.unpack, h8, ih (o + 1) (by omega)]
    · have h8 : uint8Packer.unpack buf o = none := by
        simp only [uint8Packer.unpack, fixedUintUnpack, fixedUnpack, if_neg hc]
      simp only [uintPacker.unpack, h8]

/-- When `num_bytes` bytes of genuine byte values are available at the
offset, `uintPacker.unpack` succeeds and decodes exactly the big-endian
value of the slice, advancing the offset by `num_bytes`. -/
theorem uintPacker_unpack_ok (n : Nat) (buf : List Nat) (o : Nat)
    (hlen : o + n ≤ buf.length)
    (hb : ∀ b ∈ (buf.drop o).take n, b < 256) :
    uintPacker.unpack n buf o =
      some (fromBytesBE ((buf.drop o).take n), o + n) := by
  induction n generalizing o with
  | zero => simp [uintPacker.unpack, fromBytesBE]
  | succ n ih =>
    have ho : o < buf.length := by omega
    have hdrop : buf.drop o = buf[o] :: buf.drop (o + 1) :=
      List.drop_eq_getElem_cons ho
    have h8 : uint8Packer.unpack buf o =
        some (fromBytesBE ((buf.drop o).take 1), o + 1) := by
      simp only [uint8Packer.unpack, fixedUintUnpack, fixedUnpack,
        if_pos (by omega : o + 1 ≤ buf.length)]
    have htake1 : (buf.drop o).take 1 = [buf[o]] := by
      rw [hdrop, List.take_succ_cons, List.take_zero]
    have hslice : (buf.drop o).take (n + 1) = buf[o] :: (buf.drop (o + 1)).take n := by
      rw [hdrop, List.take_succ_cons]
    have hbtail : ∀ b ∈ (buf.drop (o + 1)).take n, b < 256 := by
      intro b hbm
      exact hb b (by rw [hslice]; exact List.mem_cons_of_mem _ hbm)
    have hrec := ih (o + 1) (by omega) hbtail
    have hlenTail : ((buf.drop (o + 1)).take n).length = n := by
      rw [List.length_take, List.length_drop]
      omega
    have hvlt : fromBytesBE ((buf.drop (o + 1)).take n) < 2 ^ (8 * n) := by
      have := fromBytesBE_lt _ hbtail
      rw [hlenTail] at this
      exact this
    have hsingle : fromBytesBE ((buf.drop o).take 1) = buf[o] := by
      rw [htake1]
      simp [fromBytesBE]
    simp only [uintPacker.unpack, h8, hrec]
    rw [hsingle, hslice, fromBytesBE_cons, hlenTail,
      shiftLeft_or_eq_add hvlt, pow256_eq]
    have harith : o + 1 + n = o + (n + 1) := by omega
    rw [harith]

theorem decodeUTF8_nil : decodeUTF8 [] = some [] := by
  rw [decodeUTF8]
  rfl

theorem decodeUTF8_cons (bs : List Nat) (hne : ¬bs.isEmpty) (c k : Nat)
    (h : decodeUTF8Step bs = some (c, k)) :
    decodeUTF8 bs = (decodeUTF8 (bs.drop k)).map (fun s => c :: s) := by
  rw [decodeUTF8]
  rw [if_neg hne]
  split
  · rename_i heq; rw [h] at heq; exact absurd heq (by simp)
  · rename_i c' k' heq
    rw [h] at heq
    simp only [Option.some.injEq, Prod.mk.injEq] at heq
    rw [heq.1, heq.2]

theorem encodeUTF8Char_ne_nil (c : Nat) : encodeUTF8Char c ≠ [] := by
  simp only [encodeUTF8Char]
  split
  · simp
  · split
    · simp
    · split
      · simp
      · simp

/-- Reading one scalar off the head of `encodeUTF8Char c ++ bs` yields
exactly `c` and consumes exactly the serialization's length. -/
theorem decodeUTF8Step_enc (c : Nat) (hc : c < 0x110000)
    (hs : ¬(0xD800 ≤ c ∧ c < 0xE000)) (bs : List Nat) :
    decodeUTF8Step (encodeUTF8Char c ++ bs) =
      some (c, (encodeUTF8Char c).length) := by
  by_cases h1 : c < 0x80
  · have e1 : encodeUTF8Char c = [c] := by
      simp only [encodeUTF8Char]
      rw [if_pos h1]
    rw [e1]
    show decodeUTF8Step (c :: bs) = some (c, 1)
    simp only [decodeUTF8Step]
    rw [if_pos h1]
  · by_cases h2 : c < 0x800
    · have e1 : encodeUTF8Char c = [0xC0 + c / 64, 0x80 + c % 64] := by
        simp only [encodeUTF8Char]
        rw [if_neg h1, if_pos h2]
      rw [e1]
      show decodeUTF8Step ((0xC0 + c / 64) :: (0x80 + c % 64) :: bs) =
        some (c, 2)
      simp only [decodeUTF8Step]
      rw [if_neg (by omega), if_neg (by omega), if_pos (by omega),
        if_pos (by omega)]
      have hval : (0xC0 + c / 64 - 0xC0) * 64 + (0x80 + c % 64 - 0x80) = c := by
        omega
      rw [hval]
    · by_cases h3 : c < 0x10000
      · have e1 : encodeUTF8Char c =
            [0xE0 + c / 4096, 0x80 + c / 64 % 64, 0x80 + c % 64] := by
          simp only [encodeUTF8Char]
          rw [if_neg h1, if_neg h2, if_pos h3]
        rw [e1]
        show decodeUTF8Step
          ((0xE0 + c / 4096) :: (0x80 + c / 64 % 64) :: (0x80 + c % 64) :: bs) =
          some (c, 3)
        simp only [decodeUTF8Step]
        rw [if_neg (by omega), if_neg (by omega), if_neg (by omega),
          if_pos (by omega), if_pos (by omega)]
        have hval : (0xE0 + c / 4096 - 0xE0) * 4096 +
            (0x80 + c / 64 % 64 - 0x80) * 64 + (0x80 + c % 64 - 0x80) = c := by
          omega
        rw [hval]
        rw [if_neg (by omega)]
      · have e1 : encodeUTF8Char c =
            [0xF0 + c / 262144, 0x80 + c / 4096 % 64, 0x80 + c / 64 % 64,
              0x80 + c % 64] := by
          simp only [encodeUTF8Char]
          rw [if_neg h1, if_neg h2, if_neg h3]
        rw [e1]
        show decodeUTF8Step
          ((0xF0 + c / 262144) :: (0x80 + c / 4096 % 64) ::
            (0x80 + c / 64 % 64) :: (0x80 + c % 64) :: bs) =
          some (c, 4)
        simp only [decodeUTF8Step]
        rw [if_neg (by omega), if_neg (by omega), if_neg (by omega),
          if_neg (by omega), if_pos (by omega), if_pos (by omega)]
        have hval : (0xF0 + c / 262144 - 0xF0) * 262144 +
            (0x80 + c / 4096 % 64 - 0x80) * 4096 +
            (0x80 + c / 64 % 64 - 0x80) * 64 + (0x80 + c % 64 - 0x80) = c := by
          omega
        rw [hval]
        rw [if_neg (by omega)]

/-- Decoding one UTF-8-serialized scalar value at the head of a byte
string peels off exactly that scalar and continues with the rest. -/
theorem decodeUTF8_encodeUTF8Char (c : Nat) (hc : c < 0x110000)
    (hs : ¬(0xD800 ≤ c ∧ c < 0xE000)) (bs s : List Nat)
    (h : decodeUTF8 bs = some s) :
    decodeUTF8 (encodeUTF8Char c ++ bs) = some (c :: s) := by
  have hne : ¬(encodeUTF8Char c ++ bs).isEmpty := by
    simp [List.isEmpty_iff, encodeUTF8Char_ne_nil c]
  rw [decodeUTF8_cons _ hne c _ (decodeUTF8Step_enc c hc hs bs)]
  rw [List.drop_left, h]
  rfl

/-- Full UTF-8 round trip: decoding the concatenated serializations of a
sequence of Unicode scalar values recovers the sequence. -/
theorem decodeUTF8_map_flatten (s : List Nat)
    (h : ∀ c ∈ s, c < 0x110000 ∧ ¬(0xD800 ≤ c ∧ c < 0xE000)) :
    decodeUTF8 (s.map encodeUTF8Char).flatten = some s := by
  induction s with
  | nil => exact decodeUTF8_nil
  | cons c t ih =>
    have hc := h c (List.mem_cons_self _ _)
    have ht : ∀ x ∈ t, x < 0x110000 ∧ ¬(0xD800 ≤ x ∧ x < 0xE000) :=
      fun x hx => h x (List.mem_cons_of_mem _ hx)
    simp only [List.map_cons, List.flatten_cons]
    exact decodeUTF8_encodeUTF8Char c hc.1 hc.2 _ t (ih ht)

theorem recv_all_loop_done {σ : Type} (recvFn : σ → Nat → List Nat × σ)
    (st : σ) (size : Nat) (received : List Nat)
    (h : ¬received.length < size) :
    recv_all_loop recvFn st size received = Except.ok (received, st) := by
  unfold recv_all_loop
  rw [dif_neg h]

theorem recv_all_loop_lost {σ : Type} (recvFn : σ → Nat → List Nat × σ)
    (st : σ) (size : Nat) (received : List Nat)
    (h : received.length < size)
    (hnil : (recvFn st (size - received.length)).1 = []) :
    recv_all_loop recvFn st size received = Except.error "Lost connection" := by
  unfold recv_all_loop
  rw [dif_pos h, dif_pos hnil]

theorem recv_all_loop_step {σ : Type} (recvFn : σ → Nat → List Nat × σ)
    (st : σ) (size : Nat) (received : List Nat)
    (h : received.length < size)
    (hnil : ¬(recvFn st (size - received.length)).1 = []) :
    recv_all_loop recvFn st size received =
      recv_all_loop recvFn (recvFn st (size - received.length)).2 size
        (received ++ (recvFn st (size - received.length)).1) := by
  conv_lhs => rw [recv_all_loop.eq_def]
  rw [dif_pos h, dif_neg hnil]

/-- If the loop returns at all, it returns at least `size` bytes: the
loop condition has become false, so the result is never short. -/
theorem recv_all_loop_ge {σ : Type} (recvFn : σ → Nat → List Nat × σ)
    (st : σ) (size : Nat) (received : List Nat) :
    ∀ res st2, recv_all_loop recvFn st size received = Except.ok (res, st2) →
      size ≤ res.length := by
  induction st, size, received using recv_all_loop.induct recvFn with
  | case1 st size received hlt hnil =>
    intro res st2 h
    rw [recv_all_loop_lost recvFn st size received hlt hnil] at h
    exact absurd h (by simp)
  | case2 st size received hlt hnil ih =>
    intro res st2 h
    rw [recv_all_loop_step recvFn st size received hlt hnil] at h
    exact ih res st2 h
  | case3 st size received hge =>
    intro res st2 h
    rw [recv_all_loop_done recvFn st size received hge] at h
    simp only [Except.ok.injEq, Prod.mk.injEq] at h
    rw [← h.1]
    omega

/-- If every read delivers at most the requested count (as a socket
does), the loop never overshoots either: a successful result has exactly
`size` bytes. -/
theorem recv_all_loop_exact {σ : Type} (recvFn : σ → Nat → List Nat × σ)
    (hbound : ∀ s k, ((recvFn s k).1).length ≤ k)
    (st : σ) (size : Nat) (received : List Nat) :
    ∀ res st2, received.length ≤ size →
      recv_all_loop recvFn st size received = Except.ok (res, st2) →
      res.length = size := by
  induction st, size, received using recv_all_loop.induct recvFn with
  | case1 st size received hlt hnil =>
    intro res st2 hle h
    rw [recv_all_loop_lost recvFn st size received hlt hnil] at h
    exact absurd h (by simp)
  | case2 st size received hlt hnil ih =>
    intro res st2 hle h
    rw [recv_all_loop_step recvFn st size received hlt hnil] at h
    have hnew : (received ++ (recvFn st (size - received.length)).1).length ≤
        size := by
      simp only [List.length_append]
      have := hbound st (size - received.length)
      omega
    exact ih res st2 hnew h
  | case3 st size received hge =>
    intro res st2 hle h
    rw [recv_all_loop_done recvFn st size received hge] at h
    simp only [Except.ok.injEq, Prod.mk.injEq] at h
    rw [← h.1]
    omega

theorem bufRecv_bound (buf : List Nat) :
    ∀ pos k, ((bufRecv buf pos k).1).length ≤ k := by
  intro pos k
  simp [bufRecv, List.length_take]

/-- Reading `n` bytes out of a buffered connection holding at least `n`
bytes past the position yields exactly the next `n` bytes and advances
the position by `n`. -/
theorem recv_all_bufRecv (buf : List Nat) (pos n : Nat)
    (h : pos + n ≤ buf.length) :
    recv_all (bufRecv buf) pos n =
      Except.ok ((buf.drop pos).take n, pos + n) := by
  have hlen : ((buf.drop pos).take n).length = n := by
    rw [List.length_take, List.length_drop]
    omega
  unfold recv_all
  by_cases hn : 0 < n
  · have hstep := recv_all_loop_step (bufRecv buf) pos n []
      (by simpa using hn)
      (by
        simp only [bufRecv, List.nil_append, Nat.sub_zero, List.length_nil]
        intro hcon
        rw [hcon] at hlen
        simp at hlen
        omega)
    rw [hstep]
    simp only [bufRecv, List.length_nil, Nat.sub_zero, List.nil_append]
    rw [recv_all_loop_done]
    · rw [hlen]
    · rw [hlen]
      omega
  · have hn0 : n = 0 := by omega
    subst hn0
    rw [recv_all_loop_done (bufRecv buf) pos 0 [] (by simp)]
    simp

/-- Round trip of the signed fixed-width formats, with arbitrary trailing
bytes after the encoding: decoding reads back exactly the encoded value
and consumes exactly its width. -/
theorem intPacker_roundtrip (w : Nat) (v : Int) (bs : List Nat)
    (hp : intPacker.pack w v = some bs) (extra : List Nat) :
    intPacker.unpack w (bs ++ extra) 0 = some (v, bs.length) := by
  simp only [intPacker.pack] at hp
  split at hp
  case isFalse => exact absurd hp (by simp)
  case isTrue hcond =>
    simp only [Option.some.injEq] at hp
    subst hp
    cases w with
    | zero =>
      exfalso
      simp only [Nat.mul_zero, pow_zero] at hcond
      omega
    | succ w' =>
      set W := 8 * (w' + 1) with hW
      have hcastN : ((2 ^ W : Nat) : Int) = (2 : Int) ^ W := by
        push_cast
        rfl
      have hQ : 2 ^ W = 2 * 2 ^ (W - 1) := by
        conv_lhs => rw [show W = W - 1 + 1 from by omega]
        rw [pow_succ]
        ring
      have hhalf : (2 : Int) ^ W / 2 = ((2 ^ (W - 1) : Nat) : Int) := by
        rw [← hcastN, hQ]
        push_cast
        rw [Int.mul_ediv_cancel_left _ (by norm_num)]
      rw [hhalf] at hcond
      have hQc : ((2 ^ W : Nat) : Int) = 2 * ((2 ^ (W - 1) : Nat) : Int) := by
        exact_mod_cast hQ
      have hNpos : (0 : Int) < (2 : Int) ^ W := by positivity
      have hmod_nonneg : 0 ≤ v % (2 : Int) ^ W :=
        Int.emod_nonneg v (by omega)
      have hmod_lt : v % (2 : Int) ^ W < (2 : Int) ^ W :=
        Int.emod_lt_of_pos v hNpos
      have hmcast : (((v % (2 : Int) ^ W).toNat : Int)) = v % (2 : Int) ^ W :=
        Int.toNat_of_nonneg hmod_nonneg
      have hm_lt : (v % (2 : Int) ^ W).toNat < 2 ^ W := by
        rw [← hcastN] at hmod_lt
        omega
      have hlen : (toBytesBE (w' + 1) (v % (2 : Int) ^ W).toNat).length =
          w' + 1 := toBytesBE_length _ _
      have hslice :
          ((toBytesBE (w' + 1) (v % (2 : Int) ^ W).toNat ++ extra).drop 0).take
            (w' + 1) = toBytesBE (w' + 1) (v % (2 : Int) ^ W).toNat := by
        rw [List.drop_zero]
        exact List.take_left' hlen
      have hveqs : v % (2 : Int) ^ W = v ∨
          v % (2 : Int) ^ W = v + ((2 ^ W : Nat) : Int) := by
        by_cases hv : 0 ≤ v
        · exact Or.inl (Int.emod_eq_of_lt hv (by rw [← hcastN]; omega))
        · refine Or.inr ?_
          have h1 : (v + ((2 ^ W : Nat) : Int)) % (2 : Int) ^ W =
              v % (2 : Int) ^ W := by
            rw [hcastN]
            exact Int.add_emod_self
          rw [← h1]
          exact Int.emod_eq_of_lt (by omega) (by rw [← hcastN]; omega)
      simp only [intPacker.unpack, fixedUnpack]
      rw [if_pos (by simp only [List.length_append]; omega)]
      rw [hslice]
      simp only [fromBytesBE_toBytesBE]
      rw [← hW]
      obtain ⟨m, hmdef⟩ : ∃ m, (v % (2 : Int) ^ W).toNat = m := ⟨_, rfl⟩
      rw [hmdef] at hmcast hm_lt hlen ⊢
      rw [Nat.mod_eq_of_lt hm_lt, hlen]
      rcases hveqs with hveq | hveq
      · have hmv : (m : Int) = v := by rw [hmcast, hveq]
        rw [if_pos (by omega)]
        simp only [Option.some.injEq, Prod.mk.injEq]
        exact ⟨hmv, by omega⟩
      · have hmv : (m : Int) = v + ((2 ^ W : Nat) : Int) := by
          rw [hmcast, hveq]
        rw [if_neg (by omega)]
        simp only [Option.some.injEq, Prod.mk.injEq]
        refine ⟨by rw [← hcastN]; omega, by omega⟩

/-- Round trip of the unsigned fixed-width formats, with arbitrary
trailing bytes after the encoding. -/
theorem fixedUint_roundtrip (w v : Nat) (bs : List Nat)
    (hp : fixedUintPack w v = some bs) (extra : List Nat) :
    fixedUintUnpack w (bs ++ extra) 0 = some (v, bs.length) := by
  simp only [fixedUintPack] at hp
  split at hp
  case isFalse => exact absurd hp (by simp)
  case isTrue hcond =>
    simp only [Option.some.injEq] at hp
    subst hp
    have hlen := toBytesBE_length w v
    simp only [fixedUintUnpack, fixedUnpack]
    rw [if_pos (by simp only [List.length_append]; omega)]
    rw [List.drop_zero, List.take_left' hlen, fromBytesBE_toBytesBE,
      Nat.mod_eq_of_lt hcond, hlen]
    simp

/-- Round trip of the boolean format, with arbitrary trailing bytes. -/
theorem boolPacker_roundtrip (b : Bool) (extra : List Nat) :
    boolPacker.unpack (boolPacker.pack b ++ extra) 0 =
      some (b, (boolPacker.pack b).length) := by
  cases b with
  | true =>
    simp [boolPacker.pack, boolPacker.unpack, fixedUnpack]
  | false =>
    simp [boolPacker.pack, boolPacker.unpack, fixedUnpack]

/-- Round trip of the arbitrary-width unsigned packer, with arbitrary
trailing bytes: the decoded value is the packed value reduced to its low
`8*n` bits. -/
theorem uintPacker_roundtrip (n v : Nat) (extra : List Nat) :
    uintPacker.unpack n (uintPacker.pack n v ++ extra) 0 =
      some (v % 2 ^ (8 * n), n) := by
  have hlen : (uintPacker.pack n v).length = n := toBytesBE_length n v
  have hslice : ((uintPacker.pack n v ++ extra).drop 0).take n =
      uintPacker.pack n v := by
    rw [List.drop_zero]
    exact List.take_left' hlen
  have hb : ∀ b ∈ ((uintPacker.pack n v ++ extra).drop 0).take n, b < 256 := by
    rw [hslice]
    exact toBytesBE_lt n v
  rw [uintPacker_unpack_ok n (uintPacker.pack n v ++ extra) 0
    (by simp only [List.length_append]; omega) hb]
  rw [hslice]
  show some (fromBytesBE (toBytesBE n v), 0 + n) = _
  rw [fromBytesBE_toBytesBE]
  simp

/-- Round trip of the ASCII string packer, with arbitrary trailing
bytes: decoding reads the 4-byte length, slices exactly the payload and
consumes `4 + length` bytes. -/
theorem astringPacker_roundtrip (s bs : List Nat)
    (hp : astringPacker.pack s = some bs) (extra : List Nat) :
    astringPacker.unpack (bs ++ extra) 0 = some (s, bs.length) := by
  by_cases hA : ∀ c ∈ s, c < 128
  case neg =>
    simp only [astringPacker.pack, encodeASCII, if_neg hA] at hp
    exact absurd hp (by simp)
  case pos =>
    simp only [astringPacker.pack, encodeASCII, if_pos hA,
      fixedUintPack] at hp
    by_cases hL : s.length < 2 ^ (8 * 4)
    case neg =>
      rw [if_neg hL] at hp
      exact absurd hp (by simp)
    case pos =>
      rw [if_pos hL] at hp
      simp only [Option.some.injEq] at hp
      subst hp
      have h4 := toBytesBE_length 4 s.length
      have hlen : (toBytesBE 4 s.length ++ s).length = 4 + s.length := by
        rw [List.length_append, h4]
      simp only [astringPacker.unpack, uint32Packer.unpack, fixedUintUnpack,
        fixedUnpack]
      rw [if_pos (by simp only [List.length_append]; omega)]
      rw [List.drop_zero, List.append_assoc, List.take_left' h4,
        fromBytesBE_toBytesBE]
      have hmod : s.length % 2 ^ (8 * 4) = s.length :=
        Nat.mod_eq_of_lt (by exact_mod_cast hL)
      rw [hmod]
      have hdrop : ((toBytesBE 4 s.length ++ (s ++ extra)).drop (0 + 4)) =
          s ++ extra := List.drop_left' h4
      simp only [hdrop, List.take_left]
      simp only [decodeASCII]
      rw [if_pos hA]
      simp only [Option.some.injEq, Prod.mk.injEq]
      exact ⟨trivial, by omega⟩

/-- Round trip of the UTF-8 string packer, with arbitrary trailing
bytes. -/
theorem wstringPacker_roundtrip (s bs : List Nat)
    (hp : wstringPacker.pack s = some bs) (extra : List Nat) :
    wstringPacker.unpack (bs ++ extra) 0 = some (s, bs.length) := by
  by_cases hA : ∀ c ∈ s, c < 0x110000 ∧ ¬(0xD800 ≤ c ∧ c < 0xE000)
  case neg =>
    simp only [wstringPacker.pack, encodeUTF8, if_neg hA] at hp
    exact absurd hp (by simp)
  case pos =>
    simp only [wstringPacker.pack, encodeUTF8, if_pos hA,
      fixedUintPack] at hp
    by_cases hL : (s.map encodeUTF8Char).flatten.length < 2 ^ (8 * 4)
    case neg =>
      rw [if_neg hL] at hp
      exact absurd hp (by simp)
    case pos =>
      rw [if_pos hL] at hp
      simp only [Option.some.injEq] at hp
      subst hp
      set u := (s.map encodeUTF8Char).flatten with hu
      have h4 := toBytesBE_length 4 u.length
      have hlen : (toBytesBE 4 u.length ++ u).length = 4 + u.length := by
        rw [List.length_append, h4]
      simp only [wstringPacker.unpack, uint32Packer.unpack, fixedUintUnpack,
        fixedUnpack]
      rw [if_pos (by simp only [List.length_append]; omega)]
      rw [List.drop_zero, List.append_assoc, List.take_left' h4,
        fromBytesBE_toBytesBE]
      have hmod : u.length % 2 ^ (8 * 4) = u.length :=
        Nat.mod_eq_of_lt (by exact_mod_cast hL)
      rw [hmod]
      have hdrop : ((toBytesBE 4 u.length ++ (u ++ extra)).drop (0 + 4)) =
          u ++ extra := List.drop_left' h4
      simp only [hdrop, List.take_left]
      rw [show decodeUTF8 u = some s from decodeUTF8_map_flatten s hA]
      simp only [Option.some.injEq, Prod.mk.injEq]
      exact ⟨trivial, by omega⟩

theorem toBytesBE_getD (w v i : Nat) (h : i < w) :
    (toBytesBE w v).getD (w - 1 - i) 0 = (v >>> (8 * i)) &&& 0xFF := by
  induction w generalizing i with
  | zero => omega
  | succ w ih =>
    by_cases hi : i = w
    · have hidx : w + 1 - 1 - i = 0 := by omega
      rw [hidx, hi]
      rfl
    · have hiw : i < w := by omega
      have hidx : w + 1 - 1 - i = (w - 1 - i) + 1 := by omega
      rw [hidx]
      simp only [toBytesBE, List.getD_cons_succ]
      exact ih i hiw

/-- Claim C10: the boolean encoder is canonical — `boolPacker.pack True`
is exactly the single byte `0x01` and `boolPacker.pack False` exactly
`0x00` — while `boolPacker.unpack` accepts any nonzero byte as true. -/
theorem bool_canonical_encoding :
    boolPacker.pack true = [1] ∧ boolPacker.pack false = [0] ∧
      ∀ byte : Nat, boolPacker.unpack [byte] 0 = some (byte != 0, 1) := by
  refine ⟨rfl, rfl, fun byte => ?_⟩
  simp [boolPacker.unpack, fixedUnpack]

/-- Claim C6: for every width `n ≥ 1` and value, `uintPacker.pack n v`
emits exactly `n` bytes, most significant first, the byte for position
`i` being `(v >>> (8*i)) &&& 0xFF`; overflow silently truncates, so
unpacking the packed bytes returns `v mod 2^(8n)` and consumes `n`
bytes. -/
theorem uintPacker_pack_unpack_spec (n v : Nat) (hn : 1 ≤ n) :
    (uintPacker.pack n v).length = n ∧
    (∀ i, i < n → (uintPacker.pack n v).getD (n - 1 - i) 0 =
      (v >>> (8 * i)) &&& 0xFF) ∧
    uintPacker.unpack n (uintPacker.pack n v) 0 =
      some (v % 2 ^ (8 * n), n) := by
  refine ⟨toBytesBE_length n v, fun i hi => toBytesBE_getD n v i hi, ?_⟩
  have := uintPacker_roundtrip n v []
  rwa [List.append_nil] at this

theorem uintPacker_pack_unpack_spec_witness :
    (uintPacker.pack 2 4660).length = 2 ∧
    (uintPacker.pack 2 4660).getD 0 0 = (4660 >>> (8 * 1)) &&& 0xFF ∧
    uintPacker.unpack 2 (uintPacker.pack 2 4660) 0 =
      some (4660 % 2 ^ (8 * 2), 2) := by
  obtain ⟨h1, h2, h3⟩ := uintPacker_pack_unpack_spec 2 4660 (by norm_num)
  exact ⟨h1, h2 1 (by norm_num), h3⟩

/-- Claim C8 counterexample: with the caller-supplied width 0,
`uintPacker.unpack` succeeds, consumes zero bytes and returns the offset
unchanged — so not every successful decode advances the offset for every
caller-supplied width. -/
theorem uintPacker_unpack_zero_width :
    uintPacker.unpack 0 [] 0 = some (0, 0) := rfl

theorem fixedUnpack_offset {α : Type} (size : Nat) (decodeFn : List Nat → α)
    (buf : List Nat) (o : Nat) (a : α) (o2 : Nat)
    (h : fixedUnpack size decodeFn buf o = some (a, o2)) : o2 = o + size := by
  simp only [fixedUnpack] at h
  split at h
  · simp only [Option.some.injEq, Prod.mk.injEq] at h
    exact h.2.symm
  · exact absurd h (by simp)

theorem astring_unpack_offset (buf : List Nat) (o : Nat) (s : List Nat)
    (o2 : Nat) (h : astringPacker.unpack buf o = some (s, o2)) :
    o + 4 ≤ o2 := by
  cases h32 : uint32Packer.unpack buf o with
  | none => simp [astringPacker.unpack, h32] at h
  | some p =>
    obtain ⟨L, o1⟩ := p
    have ho1 : o1 = o + 4 := fixedUnpack_offset 4 fromBytesBE buf o L o1 h32
    cases hd : decodeASCII ((buf.drop o1).take L) with
    | none => simp [astringPacker.unpack, h32, hd] at h
    | some s2 =>
      simp only [astringPacker.unpack, h32, hd, Option.some.injEq,
        Prod.mk.injEq] at h
      omega

theorem wstring_unpack_offset (buf : List Nat) (o : Nat) (s : List Nat)
    (o2 : Nat) (h : wstringPacker.unpack buf o = some (s, o2)) :
    o + 4 ≤ o2 := by
  cases h32 : uint32Packer.unpack buf o with
  | none => simp [wstringPacker.unpack, h32] at h
  | some p =>
    obtain ⟨L, o1⟩ := p
    have ho1 : o1 = o + 4 := fixedUnpack_offset 4 fromBytesBE buf o L o1 h32
    cases hd : decodeUTF8 ((buf.drop o1).take L) with
    | none => simp [wstringPacker.unpack, h32, hd] at h
    | some s2 =>
      simp only [wstringPacker.unpack, h32, hd, Option.some.injEq,
        Prod.mk.injEq] at h
      omega

/-- Claim C8, amended: every successful decode of width at least 1
returns an offset strictly greater than the input offset — boolean,
signed and unsigned fixed-width formats, `uintPacker.unpack` for every
width `n ≥ 1`, and both string packers (an empty string still consumes
its 4-byte length prefix).  For the caller-supplied width `n = 0`,
`uintPacker.unpack` succeeds consuming zero bytes. -/
theorem decode_offset_progress :
    (∀ buf o b o2, boolPacker.unpack buf o = some (b, o2) → o < o2) ∧
    (∀ w, 1 ≤ w → ∀ buf o (v : Int) o2,
      intPacker.unpack w buf o = some (v, o2) → o < o2) ∧
    (∀ w, 1 ≤ w → ∀ buf o v o2,
      fixedUintUnpack w buf o = some (v, o2) → o < o2) ∧
    (∀ n, 1 ≤ n → ∀ buf o v o2,
      uintPacker.unpack n buf o = some (v, o2) → o < o2) ∧
    (∀ buf o s o2, astringPacker.unpack buf o = some (s, o2) → o < o2) ∧
    (∀ buf o s o2, wstringPacker.unpack buf o = some (s, o2) → o < o2) := by
  refine ⟨?_, ?_, ?_, ?_, ?_, ?_⟩
  · intro buf o b o2 h
    have := fixedUnpack_offset 1 _ buf o b o2 h
    omega
  · intro w hw buf o v o2 h
    have := fixedUnpack_offset w _ buf o v o2 h
    omega
  · intro w hw buf o v o2 h
    have := fixedUnpack_offset w _ buf o v o2 h
    omega
  · intro n hn buf o v o2 h
    have := uintPacker_unpack_offset n buf o v o2 h
    omega
  · intro buf o s o2 h
    have := astring_unpack_offset buf o s o2 h
    omega
  · intro buf o s o2 h
    have := wstring_unpack_offset buf o s o2 h
    omega

theorem decode_offset_progress_witness :
    fixedUintUnpack 1 [7] 0 = some (7, 1) ∧ (0 : Nat) < 1 := by
  have heval : fixedUintUnpack 1 [7] 0 = some (7, 1) := by decide
  exact ⟨heval, decode_offset_progress.2.2.1 1 (by norm_num) [7] 0 7 1 heval⟩

/-- Claim C2 counterexample: a buffer whose length prefix promises 5
bytes but which holds only 2 after the prefix.  `astringPacker.unpack`
does NOT fail: Python slicing silently yields the short slice, which
decodes fine, and the returned offset 9 even lies past the end of the
6-byte buffer. -/
theorem astring_truncated_silent_success :
    astringPacker.unpack [0, 0, 0, 5, 97, 98] 0 = some ([97, 98], 9) := by
  decide

theorem fixedUnpack_none {α : Type} (size : Nat) (decodeFn : List Nat → α)
    (buf : List Nat) (o : Nat) (h : buf.length - o < size) :
    fixedUnpack size decodeFn buf o = none := by
  simp only [fixedUnpack]
  rw [if_neg (by omega)]

/-- Claim C2, amended: the fixed-width formats (boolean, signed and
unsigned integers, floats) and the arbitrary-width integer unpack do fail
when fewer bytes remain than the value needs, and the string packers fail
when fewer than 4 bytes remain for the length prefix; but after a
readable length prefix the string packers do NOT fail on a truncated
payload — they silently return the decoded short slice together with the
out-of-range offset `prefixEnd + length`. -/
theorem truncation_behavior :
    (∀ buf o, buf.length - o < 1 → boolPacker.unpack buf o = none) ∧
    (∀ w buf o, buf.length - o < w → intPacker.unpack w buf o = none) ∧
    (∀ w buf o, buf.length - o < w → fixedUintUnpack w buf o = none) ∧
    (∀ n buf o, buf.length - o < n → uintPacker.unpack n buf o = none) ∧
    (∀ buf o, buf.length - o < 4 → astringPacker.unpack buf o = none) ∧
    (∀ buf o, buf.length - o < 4 → wstringPacker.unpack buf o = none) ∧
    (∀ L payload, payload.length < L → (∀ b ∈ payload, b < 128) →
      L < 2 ^ (8 * 4) →
      astringPacker.unpack (toBytesBE 4 L ++ payload) 0 =
        some (payload, 4 + L)) := by
  refine ⟨?_, ?_, ?_, ?_, ?_, ?_, ?_⟩
  · intro buf o h
    exact fixedUnpack_none 1 _ buf o h
  · intro w buf o h
    exact fixedUnpack_none w _ buf o h
  · intro w buf o h
    exact fixedUnpack_none w _ buf o h
  · intro n buf o h
    exact uintPacker_unpack_none n buf o h
  · intro buf o h
    have h32 : uint32Packer.unpack buf o = none := fixedUnpack_none 4 _ buf o h
    simp [astringPacker.unpack, h32]
  · intro buf o h
    have h32 : uint32Packer.unpack buf o = none := fixedUnpack_none 4 _ buf o h
    simp [wstringPacker.unpack, h32]
  · intro L payload hshort hA hL
    have h4 := toBytesBE_length 4 L
    have h32 : uint32Packer.unpack (toBytesBE 4 L ++ payload) 0 =
        some (L, 4) := by
      simp only [uint32Packer.unpack, fixedUintUnpack, fixedUnpack]
      rw [if_pos (by simp only [List.length_append]; omega)]
      rw [List.drop_zero, List.take_left' h4, fromBytesBE_toBytesBE,
        Nat.mod_eq_of_lt hL]
    have hdrop : ((toBytesBE 4 L ++ payload).drop 4) = payload :=
      List.drop_left' h4
    have htake : payload.take L = payload :=
      List.take_of_length_le (by omega)
    simp only [astringPacker.unpack, h32, hdrop, htake]
    simp only [decodeASCII]
    rw [if_pos hA]

theorem truncation_behavior_witness :
    fixedUintUnpack 2 [1] 0 = none ∧ ([1] : List Nat).length - 0 < 2 := by
  exact ⟨truncation_behavior.2.2.1 2 [1] 0 (by norm_num), by norm_num⟩

/-- Claim C1: for every representable value of a primitive type (boolean;
signed and unsigned integers of any fixed width, which covers the
1/2/4/8-byte formats; float32/float64 as IEEE-754 bit patterns) or string
type (ASCII or UTF-8), unpacking the packed bytes at offset 0 returns
exactly the original value together with the encoding's length. -/
theorem primitive_string_roundtrip :
    (∀ b : Bool, boolPacker.unpack (boolPacker.pack b) 0 =
      some (b, (boolPacker.pack b).length)) ∧
    (∀ w (v : Int) bs, intPacker.pack w v = some bs →
      intPacker.unpack w bs 0 = some (v, bs.length)) ∧
    (∀ w v bs, fixedUintPack w v = some bs →
      fixedUintUnpack w bs 0 = some (v, bs.length)) ∧
    (∀ bits bs, float32Packer.pack bits = some bs →
      float32Packer.unpack bs 0 = some (bits, bs.length)) ∧
    (∀ bits bs, float64Packer.pack bits = some bs →
      float64Packer.unpack bs 0 = some (bits, bs.length)) ∧
    (∀ s bs, astringPacker.pack s = some bs →
      astringPacker.unpack bs 0 = some (s, bs.length)) ∧
    (∀ s bs, wstringPacker.pack s = some bs →
      wstringPacker.unpack bs 0 = some (s, bs.length)) := by
  refine ⟨?_, ?_, ?_, ?_, ?_, ?_, ?_⟩
  · intro b
    have := boolPacker_roundtrip b []
    rwa [List.append_nil] at this
  · intro w v bs h
    have := intPacker_roundtrip w v bs h []
    rwa [List.append_nil] at this
  · intro w v bs h
    have := fixedUint_roundtrip w v bs h []
    rwa [List.append_nil] at this
  · intro bits bs h
    have := fixedUint_roundtrip 4 bits bs h []
    rwa [List.append_nil] at this
  · intro bits bs h
    have := fixedUint_roundtrip 8 bits bs h []
    rwa [List.append_nil] at this
  · intro s bs h
    have := astringPacker_roundtrip s bs h []
    rwa [List.append_nil] at this
  · intro s bs h
    have := wstringPacker_roundtrip s bs h []
    rwa [List.append_nil] at this

theorem primitive_string_roundtrip_witness :
    astringPacker.pack [104, 105] = some [0, 0, 0, 2, 104, 105] ∧
    astringPacker.unpack [0, 0, 0, 2, 104, 105] 0 = some ([104, 105], 6) ∧
    wstringPacker.pack [223] = some [0, 0, 0, 2, 195, 159] ∧
    wstringPacker.unpack [0, 0, 0, 2, 195, 159] 0 = some ([223], 6) ∧
    intPacker.pack 2 (-5) = some [255, 251] ∧
    intPacker.unpack 2 [255, 251] 0 = some (-5, 2) := by
  have h := primitive_string_roundtrip
  refine ⟨by decide, ?_, by decide, ?_, by decide, ?_⟩
  · exact h.2.2.2.2.2.1 [104, 105] [0, 0, 0, 2, 104, 105] (by decide)
  · exact h.2.2.2.2.2.2 [223] [0, 0, 0, 2, 195, 159] (by decide)
  · exact h.2.1 2 (-5) [255, 251] (by decide)

/-- Claim C9: decoding is local to the consumed range — appending
arbitrary trailing bytes after an encoding changes neither the decoded
value nor the consumed length, for every packer and representable value
(for `uintPacker`, representable means the value fits in the width). -/
theorem trailing_bytes_ignored :
    (∀ (b : Bool) extra, boolPacker.unpack (boolPacker.pack b ++ extra) 0 =
      some (b, (boolPacker.pack b).length)) ∧
    (∀ w (v : Int) bs extra, intPacker.pack w v = some bs →
      intPacker.unpack w (bs ++ extra) 0 = some (v, bs.length)) ∧
    (∀ w v bs extra, fixedUintPack w v = some bs →
      fixedUintUnpack w (bs ++ extra) 0 = some (v, bs.length)) ∧
    (∀ n v extra, v < 2 ^ (8 * n) →
      uintPacker.unpack n (uintPacker.pack n v ++ extra) 0 =
        some (v, (uintPacker.pack n v).length)) ∧
    (∀ s bs extra, astringPacker.pack s = some bs →
      astringPacker.unpack (bs ++ extra) 0 = some (s, bs.length)) ∧
    (∀ s bs extra, wstringPacker.pack s = some bs →
      wstringPacker.unpack (bs ++ extra) 0 = some (s, bs.length)) := by
  refine ⟨?_, ?_, ?_, ?_, ?_, ?_⟩
  · intro b extra
    exact boolPacker_roundtrip b extra
  · intro w v bs extra h
    exact intPacker_roundtrip w v bs h extra
  · intro w v bs extra h
    exact fixedUint_roundtrip w v bs h extra
  · intro n v extra hv
    have hlen : (uintPacker.pack n v).length = n := toBytesBE_length n v
    have := uintPacker_roundtrip n v extra
    rw [Nat.mod_eq_of_lt hv] at this
    rw [this, hlen]
  · intro s bs extra h
    exact astringPacker_roundtrip s bs h extra
  · intro s bs extra h
    exact wstringPacker_roundtrip s bs h extra

theorem trailing_bytes_ignored_witness :
    (200 : Nat) < 2 ^ (8 * 1) ∧
    uintPacker.unpack 1 (uintPacker.pack 1 200 ++ [255, 255]) 0 =
      some (200, (uintPacker.pack 1 200).length) := by
  exact ⟨by norm_num, trailing_bytes_ignored.2.2.2.1 1 200 [255, 255]
    (by norm_num)⟩

/-- Claim C3: `recv_all` accumulates reads until exactly `n` bytes are
collected — a successful result is never shorter than `n`, and is exactly
`n` bytes when each read returns at most the requested remaining count,
as a socket does; a read that returns zero bytes while bytes are still
missing fails immediately with the connection-lost error. -/
theorem recv_all_spec {σ : Type} (recvFn : σ → Nat → List Nat × σ)
    (st : σ) (size : Nat) :
    (∀ res st2, recv_all recvFn st size = Except.ok (res, st2) →
      size ≤ res.length) ∧
    ((∀ s k, ((recvFn s k).1).length ≤ k) →
      ∀ res st2, recv_all recvFn st size = Except.ok (res, st2) →
      res.length = size) ∧
    (0 < size → (recvFn st size).1 = [] →
      recv_all recvFn st size = Except.error "Lost connection") := by
  refine ⟨?_, ?_, ?_⟩
  · intro res st2 h
    exact recv_all_loop_ge recvFn st size [] res st2 h
  · intro hbound res st2 h
    exact recv_all_loop_exact recvFn hbound st size [] res st2 (by simp) h
  · intro hpos hnil
    unfold recv_all
    exact recv_all_loop_lost recvFn st size [] (by simpa using hpos)
      (by simpa using hnil)

theorem recv_all_spec_witness :
    recv_all (bufRecv [7, 7]) 0 2 = Except.ok ([7, 7], 2) ∧
    ([7, 7] : List Nat).length = 2 := by
  have heval : recv_all (bufRecv [7, 7]) 0 2 = Except.ok ([7, 7], 2) := by
    have := recv_all_bufRecv [7, 7] 0 2 (by norm_num)
    simpa using this
  exact ⟨heval, (recv_all_spec (bufRecv [7, 7]) 0 2).2.1
    (bufRecv_bound [7, 7]) [7, 7] 2 heval⟩

/-- Claim C4 evaluation: `uintPacker.recv` does NOT return the bare
decoded value.  Over a connection whose next byte is `0x2A`
(`uintPacker.pack 1 42`), `uintPacker.recv` with width 1 returns the
whole `unpack` result `(42, 1)` — the `(value, offset)` pair — instead of
the unsigned integer `42` that the packer protocol (and every other
packer's `recv`) returns. -/
theorem uintPacker_recv_returns_pair :
    uintPacker.recv (bufRecv [42]) 1 0 = Except.ok ((42, 1), 1) := by
  have heval : recv_all (bufRecv [42]) 0 1 = Except.ok ([42], 1) := by
    have := recv_all_bufRecv [42] 0 1 (by norm_num)
    simpa using this
  have hunp : uintPacker.unpack 1 [42] 0 = some (42, 1) := by decide
  simp only [uintPacker.recv, heval, hunp]

/-- Claim C5: for an ASCII string, `astringPacker.recv` over a connection
delivering exactly `astringPacker.pack s` reads the 4-byte length, then
exactly that many further bytes, and returns the string itself, having
consumed the whole encoding. -/
theorem astring_recv_roundtrip (s bs : List Nat)
    (hp : astringPacker.pack s = some bs) :
    astringPacker.recv (bufRecv bs) 0 = Except.ok (s, bs.length) := by
  by_cases hA : ∀ c ∈ s, c < 128
  case neg =>
    simp only [astringPacker.pack, encodeASCII, if_neg hA] at hp
    exact absurd hp (by simp)
  case pos =>
    simp only [astringPacker.pack, encodeASCII, if_pos hA,
      fixedUintPack] at hp
    by_cases hL : s.length < 2 ^ (8 * 4)
    case neg =>
      rw [if_neg hL] at hp
      exact absurd hp (by simp)
    case pos =>
      rw [if_pos hL] at hp
      simp only [Option.some.injEq] at hp
      subst hp
      have h4 := toBytesBE_length 4 s.length
      have hlen : (toBytesBE 4 s.length ++ s).length = 4 + s.length := by
        rw [List.length_append, h4]
      have hrecv1 : recv_all (bufRecv (toBytesBE 4 s.length ++ s)) 0 4 =
          Except.ok (toBytesBE 4 s.length, 4) := by
        have := recv_all_bufRecv (toBytesBE 4 s.length ++ s) 0 4 (by omega)
        rw [this]
        rw [List.drop_zero, List.take_left' h4]
      have hrecv2 : recv_all (bufRecv (toBytesBE 4 s.length ++ s)) 4
          s.length = Except.ok (s, 4 + s.length) := by
        have := recv_all_bufRecv (toBytesBE 4 s.length ++ s) 4 s.length
          (by omega)
        rw [this]
        rw [List.drop_left' h4, List.take_length]
      have h32 : uint32Packer.recv (bufRecv (toBytesBE 4 s.length ++ s)) 0 =
          Except.ok (s.length, 4) := by
        simp only [uint32Packer.recv, hrecv1]
        rw [if_pos h4]
        rw [fromBytesBE_toBytesBE, Nat.mod_eq_of_lt hL]
      simp only [astringPacker.recv, h32, hrecv2]
      rw [hlen]

theorem astring_recv_roundtrip_witness :
    astringPacker.pack [104, 105] = some [0, 0, 0, 2, 104, 105] ∧
    astringPacker.recv (bufRecv [0, 0, 0, 2, 104, 105]) 0 =
      Except.ok ([104, 105], 6) := by
  refine ⟨by decide, ?_⟩
  exact astring_recv_roundtrip [104, 105] [0, 0, 0, 2, 104, 105] (by decide)

/-- Claim C7: `astringPacker.pack` fails with the encoding error for
every string containing a character outside ASCII; for every
ASCII-representable string it emits the 4-byte unsigned big-endian byte
count followed by the raw encoded bytes. -/
theorem astring_pack_spec :
    (∀ s, (∃ c ∈ s, 128 ≤ c) → astringPacker.pack s = none) ∧
    (∀ s, (∀ c ∈ s, c < 128) → s.length < 2 ^ (8 * 4) →
      astringPacker.pack s = some (toBytesBE 4 s.length ++ s)) := by
  constructor
  · intro s hbad
    have hA : ¬∀ c ∈ s, c < 128 := by
      intro hall
      obtain ⟨c, hc, hge⟩ := hbad
      have := hall c hc
      omega
    simp [astringPacker.pack, encodeASCII, if_neg hA]
  · intro s hA hL
    simp only [astringPacker.pack, encodeASCII, if_pos hA, fixedUintPack]
    rw [if_pos hL]

theorem astring_pack_spec_witness :
    astringPacker.pack [200] = none ∧
    astringPacker.pack [104] = some (toBytesBE 4 [104].length ++ [104]) := by
  constructor
  · exact astring_pack_spec.1 [200] ⟨200, by simp, by norm_num⟩
  · exact astring_pack_spec.2 [104] (by decide) (by norm_num)
